import Mathlib

/-!
Verification of the Varon-T disruptor queue (include/vrt/queue.h and the
queue implementation it declares).

Sequence IDs are C `int` values (32-bit signed, wrapping arithmetic in
practice).  We model them as mathematical integers together with an
explicit wrapping function `int32_wrap`, so that `int32_wrap x` is the
signed 32-bit value whose bit pattern `x` would produce.
-/

/-- Two to the 31st, the half range of a 32-bit signed integer. -/
def INT32_HALF : Int := 2 ^ 31

/-- Two to the 32nd, the full range of a 32-bit signed integer. -/
def INT32_RANGE : Int := 2 ^ 32

/-- Wrap an integer into the 32-bit signed range `[-2^31, 2^31)`,
the result of storing it in a C `int` with wraparound semantics. -/
def int32_wrap (x : Int) : Int :=
  (x + INT32_HALF) % INT32_RANGE - INT32_HALF

/-- `x` is representable as a 32-bit signed integer. -/
def Int32Rep (x : Int) : Prop :=
  -INT32_HALF ≤ x ∧ x < INT32_HALF

instance (x : Int) : Decidable (Int32Rep x) := by
  unfold Int32Rep; infer_instance

/-- `vrt_mod_lt(a, b)`: from include/vrt/queue.h,
`#define vrt_mod_lt(a, b) (0 < ((b)-(a)))` where the subtraction is
performed in wrapping 32-bit signed arithmetic. -/
def vrt_mod_lt (a b : Int) : Bool :=
  decide (0 < int32_wrap (b - a))

/-- `vrt_mod_le(a, b)`: from include/vrt/queue.h,
`#define vrt_mod_le(a, b) (0 <= ((b)-(a)))` where the subtraction is
performed in wrapping 32-bit signed arithmetic. -/
def vrt_mod_le (a b : Int) : Bool :=
  decide (0 ≤ int32_wrap (b - a))

theorem int32_wrap_eq_self {x : Int} (h : Int32Rep x) : int32_wrap x = x := by
  rcases h with ⟨h1, h2⟩
  unfold int32_wrap INT32_HALF INT32_RANGE at *
  omega

theorem int32_wrap_rep (x : Int) : Int32Rep (int32_wrap x) := by
  unfold int32_wrap Int32Rep INT32_HALF INT32_RANGE
  constructor <;> omega

theorem int32_wrap_add_left (x y : Int) :
    int32_wrap (int32_wrap x + y) = int32_wrap (x + y) := by
  unfold int32_wrap INT32_HALF INT32_RANGE
  omega

theorem int32_wrap_sub_left (x y : Int) :
    int32_wrap (int32_wrap x - y) = int32_wrap (x - y) := by
  unfold int32_wrap INT32_HALF INT32_RANGE
  omega

theorem int32_wrap_sub_right (x y : Int) :
    int32_wrap (x - int32_wrap y) = int32_wrap (x - y) := by
  unfold int32_wrap INT32_HALF INT32_RANGE
  omega

/-- C1: `vrt_mod_lt(a, b)` holds exactly when the wrapping 32-bit difference
`b - a` is strictly positive, and `vrt_mod_le(a, b)` exactly when it is
non-negative; moreover for any representable `a` and any distance `d` with
`0 < d < 2^31`, `vrt_mod_lt(a, a + d)` is true and `vrt_mod_lt(a + d, a)`
is false (the addition `a + d` wrapping as in C), so the comparison handles
wraparound whenever the distance stays below half the ID range. -/
theorem vrt_mod_lt_spec :
    (∀ a b : Int, (vrt_mod_lt a b = true ↔ 0 < int32_wrap (b - a)) ∧
      (vrt_mod_le a b = true ↔ 0 ≤ int32_wrap (b - a))) ∧
    (∀ a d : Int, Int32Rep a → 0 < d → d < 2 ^ 31 →
      vrt_mod_lt a (int32_wrap (a + d)) = true ∧
      vrt_mod_lt (int32_wrap (a + d)) a = false) := by
  constructor
  · intro a b
    constructor <;> simp [vrt_mod_lt, vrt_mod_le]
  · intro a d _ hd1 hd2
    have hwd : int32_wrap d = d := by
      apply int32_wrap_eq_self
      unfold Int32Rep INT32_HALF
      omega
    have h1 : int32_wrap (int32_wrap (a + d) - a) = d := by
      rw [int32_wrap_sub_left]
      have : a + d - a = d := by ring
      rw [this, hwd]
    have h2 : int32_wrap (a - int32_wrap (a + d)) = -d := by
      rw [int32_wrap_sub_right]
      have : a - (a + d) = -d := by ring
      rw [this]
      unfold int32_wrap INT32_HALF INT32_RANGE
      omega
    constructor
    · simp [vrt_mod_lt, h1, hd1]
    · simp [vrt_mod_lt, h2]
      omega

/-- Witness for C1 at a concrete wraparound point: `a = INT32_MAX`,
`d = 5`, where the raw comparison would give the wrong answer. -/
theorem vrt_mod_lt_spec_witness :
    (Int32Rep (2 ^ 31 - 1) ∧ (0 : Int) < 5 ∧ (5 : Int) < 2 ^ 31) ∧
    vrt_mod_lt (2 ^ 31 - 1) (int32_wrap ((2 ^ 31 - 1) + 5)) = true ∧
    vrt_mod_lt (int32_wrap ((2 ^ 31 - 1) + 5)) (2 ^ 31 - 1) = false :=
  ⟨⟨by decide, by decide, by decide⟩,
    vrt_mod_lt_spec.2 (2 ^ 31 - 1) 5 (by decide) (by decide) (by decide)⟩

/-!
The queue data model, from `struct vrt_queue` in include/vrt/queue.h.
The value array is a list of slots; `value_mask` is one less than the
(power-of-two) size.  We keep only the fields the verified operations
touch; the producer/consumer registries are modelled separately.
-/

structure vrt_queue (α : Type) where
  values : List α
  value_mask : Nat
  last_consumed_id : Int
  last_claimed_id : Int
  cursor : Int

/-- `vrt_queue_size(q)`: `#define vrt_queue_size(q) ((q)->value_mask + 1)`. -/
def vrt_queue_size {α : Type} (q : vrt_queue α) : Nat :=
  q.value_mask + 1

/-- The array index computed by `vrt_queue_get`: `(id) & (q)->value_mask`.
In C the signed `id` is converted to `unsigned int` (reduction mod `2^32`)
before the bitwise AND with the unsigned mask. -/
def vrt_queue_index (id : Int) (value_mask : Nat) : Nat :=
  (id % INT32_RANGE).toNat &&& value_mask

/-- `vrt_queue_get(q, id)`: `((q)->values[(id) & (q)->value_mask])`,
as a fallible lookup into the value array. -/
def vrt_queue_get {α : Type} (q : vrt_queue α) (id : Int) : Option α :=
  q.values[vrt_queue_index id q.value_mask]?

/-- `vrt_queue_get_cursor(q)`: reads `q->cursor` (the atomic load is
modelled as a plain field read of the sequentialized state). -/
def vrt_queue_get_cursor {α : Type} (q : vrt_queue α) : Int :=
  q.cursor

/-- `vrt_queue_set_cursor(q, value)`: stores into `q->cursor`. -/
def vrt_queue_set_cursor {α : Type} (q : vrt_queue α) (value : Int) : vrt_queue α :=
  { q with cursor := value }

/-- Fuel-indexed computation of the least power of two that is at least
`target`: the recursion halves `target` (rounding up), so any
`fuel ≥ target` suffices. -/
def min_pow2_above : Nat → Nat → Nat
  | 0, _ => 1
  | fuel + 1, target => if target ≤ 1 then 1 else 2 * min_pow2_above fuel ((target + 1) / 2)

/-- Modelled from the spec: the capacity rounding performed by
`vrt_queue_new` (its body lives in the queue implementation file, which is
not part of the source tree; include/vrt/queue.h only declares it): the
requested `value_count` is rounded up to the next power of two, with a
minimum of 2. -/
def min_power_of_2 (value_count : Nat) : Nat :=
  min_pow2_above (max value_count 2) (max value_count 2)

/-- Modelled from the spec: `vrt_queue_new(name, value_type, value_count)`
(declared in include/vrt/queue.h, body not in the source tree) rounds
`value_count` up to a power of two of at least 2 slots, preallocates every
slot via the value type, and sets the published and claimed cursors to the
initial sentinel, the value whose successor is 0. -/
def vrt_queue_new {α : Type} (v0 : α) (value_count : Nat) : vrt_queue α :=
  let n := min_power_of_2 value_count
  { values := List.replicate n v0
    value_mask := n - 1
    last_consumed_id := -1
    last_claimed_id := -1
    cursor := -1 }

theorem min_pow2_above_spec :
    ∀ fuel target, 1 ≤ target → target ≤ fuel →
      ∃ k, min_pow2_above fuel target = 2 ^ k ∧ target ≤ 2 ^ k ∧ 2 ^ k < 2 * target := by
  intro fuel
  induction fuel with
  | zero => intro target h1 h2; omega
  | succ fuel ih =>
    intro target h1 h2
    by_cases ht : target ≤ 1
    · exact ⟨0, by simp [min_pow2_above, ht], by omega, by omega⟩
    · obtain ⟨k, hr, hk1, hk2⟩ := ih ((target + 1) / 2) (by omega) (by omega)
      refine ⟨k + 1, ?_, ?_, ?_⟩
      · simp [min_pow2_above, ht, hr, pow_succ]; ring
      · have hp : (target + 1) / 2 ≤ 2 ^ k := hk1
        omega
      · rcases k with _ | k
        · simp only [pow_zero] at hk1 hk2
          simp only [pow_succ, pow_zero]
          omega
        · have he : 2 ∣ 2 ^ (k + 1) := dvd_pow_self 2 (Nat.succ_ne_zero k)
          have h2p : 2 ^ (k + 1 + 1) = 2 * 2 ^ (k + 1) := by rw [pow_succ]; ring
          omega

theorem vrt_queue_index_eq_mod (id : Int) (k : Nat) :
    vrt_queue_index id (2 ^ k - 1) = (id % INT32_RANGE).toNat % 2 ^ k := by
  unfold vrt_queue_index
  exact Nat.and_pow_two_sub_one_eq_mod _ k

theorem vrt_queue_index_add_size (id : Int) (k : Nat) (hk : k ≤ 32) :
    vrt_queue_index (id + 2 ^ k) (2 ^ k - 1) = vrt_queue_index id (2 ^ k - 1) := by
  rw [vrt_queue_index_eq_mod, vrt_queue_index_eq_mod]
  have hR : INT32_RANGE = 2 ^ 32 := rfl
  have hRne : INT32_RANGE ≠ 0 := by rw [hR]; norm_num
  have hdvd : ((2 : Int) ^ k) ∣ INT32_RANGE := by rw [hR]; exact pow_dvd_pow 2 hk
  have h1 : (0 : Int) ≤ (id + 2 ^ k) % INT32_RANGE := Int.emod_nonneg _ hRne
  have h2 : (0 : Int) ≤ id % INT32_RANGE := Int.emod_nonneg _ hRne
  have cast_eq : ∀ x : Int, 0 ≤ x → ((x.toNat % 2 ^ k : Nat) : Int) = x % 2 ^ k := by
    intro x hx
    push_cast [Int.toNat_of_nonneg hx]
    ring_nf
  apply Int.natCast_inj.mp
  rw [cast_eq _ h1, cast_eq _ h2]
  rw [Int.emod_emod_of_dvd _ hdvd, Int.emod_emod_of_dvd _ hdvd]
  have hmul : id + 2 ^ k = id + 2 ^ k * 1 := by ring
  rw [hmul, Int.add_mul_emod_self_left]

/-- C7: `vrt_queue_size(q)` equals `q.value_mask + 1`, `vrt_queue_get(q, id)`
looks up the slot at index `id & value_mask`, and consequently
`vrt_queue_get(q, id + N) = vrt_queue_get(q, id)` for every `id`: sequence
IDs that share an index share the same value object. -/
theorem vrt_queue_get_mask_spec {α : Type} (q : vrt_queue α) (k : Nat)
    (hk : k ≤ 32) (hmask : q.value_mask = 2 ^ k - 1) :
    vrt_queue_size q = q.value_mask + 1 ∧
    (∀ id : Int, vrt_queue_get q id = q.values[vrt_queue_index id q.value_mask]?) ∧
    (∀ id : Int, vrt_queue_get q (id + (vrt_queue_size q : Int)) = vrt_queue_get q id) := by
  have hp : (1 : Nat) ≤ 2 ^ k := Nat.one_le_two_pow
  have hsizeN : vrt_queue_size q = 2 ^ k := by
    unfold vrt_queue_size
    omega
  have hcast : ((vrt_queue_size q : Nat) : Int) = 2 ^ k := by
    rw [hsizeN]
    push_cast
    ring
  refine ⟨rfl, fun id => rfl, fun id => ?_⟩
  show q.values[vrt_queue_index (id + (vrt_queue_size q : Int)) q.value_mask]? =
    q.values[vrt_queue_index id q.value_mask]?
  rw [hcast, hmask, vrt_queue_index_add_size id k hk]

/-- Witness for C7: a queue of 4 slots, checked at `id = 5`. -/
theorem vrt_queue_get_mask_spec_witness :
    ((2 ≤ 32) ∧ (⟨[10, 11, 12, 13], 3, -1, -1, -1⟩ : vrt_queue Nat).value_mask = 2 ^ 2 - 1) ∧
    vrt_queue_get (⟨[10, 11, 12, 13], 3, -1, -1, -1⟩ : vrt_queue Nat)
        ((5 : Int) + (vrt_queue_size (⟨[10, 11, 12, 13], 3, -1, -1, -1⟩ : vrt_queue Nat) : Int)) =
      vrt_queue_get (⟨[10, 11, 12, 13], 3, -1, -1, -1⟩ : vrt_queue Nat) 5 :=
  ⟨⟨by decide, by decide⟩,
    (vrt_queue_get_mask_spec (⟨[10, 11, 12, 13], 3, -1, -1, -1⟩ : vrt_queue Nat) 2
      (by decide) (by decide)).2.2 5⟩

/-- C10: for every signed sequence ID, including negative ones such as the
initial sentinel `-1`, the index `id & value_mask` computed by
`vrt_queue_get` lies below the queue size, so the array access is always
within the allocated value array and the lookup is total. -/
theorem vrt_queue_get_in_bounds {α : Type} (q : vrt_queue α) (k : Nat)
    (hmask : q.value_mask = 2 ^ k - 1)
    (hlen : q.values.length = vrt_queue_size q) :
    ∀ id : Int, vrt_queue_index id q.value_mask < vrt_queue_size q ∧
      (vrt_queue_get q id).isSome = true := by
  intro id
  have hp : (1 : Nat) ≤ 2 ^ k := Nat.one_le_two_pow
  have hidx : vrt_queue_index id q.value_mask < vrt_queue_size q := by
    rw [hmask, vrt_queue_index_eq_mod]
    unfold vrt_queue_size
    have := Nat.mod_lt ((id % INT32_RANGE).toNat) (show 0 < 2 ^ k by omega)
    omega
  refine ⟨hidx, ?_⟩
  unfold vrt_queue_get
  rw [List.getElem?_eq_getElem (by omega)]
  rfl

/-- Witness for C10: the 4-slot queue above, checked at the sentinel `-1`. -/
theorem vrt_queue_get_in_bounds_witness :
    ((⟨[10, 11, 12, 13], 3, -1, -1, -1⟩ : vrt_queue Nat).value_mask = 2 ^ 2 - 1 ∧
      (⟨[10, 11, 12, 13], 3, -1, -1, -1⟩ : vrt_queue Nat).values.length =
        vrt_queue_size (⟨[10, 11, 12, 13], 3, -1, -1, -1⟩ : vrt_queue Nat)) ∧
    (vrt_queue_index (-1) (⟨[10, 11, 12, 13], 3, -1, -1, -1⟩ : vrt_queue Nat).value_mask <
        vrt_queue_size (⟨[10, 11, 12, 13], 3, -1, -1, -1⟩ : vrt_queue Nat) ∧
      (vrt_queue_get (⟨[10, 11, 12, 13], 3, -1, -1, -1⟩ : vrt_queue Nat) (-1)).isSome = true) :=
  ⟨⟨by decide, by decide⟩,
    vrt_queue_get_in_bounds (⟨[10, 11, 12, 13], 3, -1, -1, -1⟩ : vrt_queue Nat) 2
      (by decide) (by decide) (-1)⟩

/-- C8: the queue built by `vrt_queue_new` has as size the least power of
two that is at least the requested `value_count` and at least 2; in
particular requesting 1000 slots yields 1024 and requesting 1 yields 2. -/
theorem vrt_queue_new_size_spec :
    (∀ (α : Type) (v0 : α) (value_count : Nat), ∃ k,
      vrt_queue_size (vrt_queue_new v0 value_count) = 2 ^ k ∧
      value_count ≤ 2 ^ k ∧ 2 ≤ 2 ^ k ∧
      ∀ j, value_count ≤ 2 ^ j → 2 ≤ 2 ^ j → 2 ^ k ≤ 2 ^ j) ∧
    vrt_queue_size (vrt_queue_new () 1000) = 1024 ∧
    vrt_queue_size (vrt_queue_new () 1) = 2 := by
  refine ⟨?_, by decide, by decide⟩
  intro α v0 vc
  obtain ⟨k, hr, h1, h2⟩ :=
    min_pow2_above_spec (max vc 2) (max vc 2) (by omega) (le_refl _)
  refine ⟨k, ?_, by omega, by omega, ?_⟩
  · show (min_power_of_2 vc - 1) + 1 = 2 ^ k
    unfold min_power_of_2
    have hpos : 1 ≤ min_pow2_above (max vc 2) (max vc 2) := by
      rw [hr]; exact Nat.one_le_two_pow
    omega
  · intro j hj1 hj2
    have hlt : 2 ^ k < 2 ^ (j + 1) := by
      calc 2 ^ k < 2 * max vc 2 := h2
        _ ≤ 2 * 2 ^ j := by omega
        _ = 2 ^ (j + 1) := by rw [pow_succ]; ring
    have hkj : k < j + 1 := (Nat.pow_lt_pow_iff_right (by norm_num)).mp hlt
    exact Nat.pow_le_pow_right (by norm_num) (by omega)

/-- Witness for C8: the two boundary instances from the spec. -/
theorem vrt_queue_new_size_spec_witness :
    vrt_queue_size (vrt_queue_new () 1000) = 1024 ∧
    vrt_queue_size (vrt_queue_new () 1) = 2 :=
  ⟨vrt_queue_new_size_spec.2.1, vrt_queue_new_size_spec.2.2⟩

/-- C9: immediately after construction the published cursor (read through
`vrt_queue_get_cursor`) and the claimed cursor both hold the sentinel `-1`,
the signed value whose 32-bit pattern is all ones (it wraps from
`2^32 - 1`) and whose successor is the first valid ID 0. -/
theorem vrt_queue_new_cursor_spec :
    ∀ (α : Type) (v0 : α) (value_count : Nat),
      vrt_queue_get_cursor (vrt_queue_new v0 value_count) = -1 ∧
      (vrt_queue_new v0 value_count).last_claimed_id = -1 ∧
      int32_wrap (INT32_RANGE - 1) = -1 ∧
      (-1 : Int) % INT32_RANGE = INT32_RANGE - 1 ∧
      (-1 : Int) + 1 = 0 := by
  intro α v0 vc
  exact ⟨rfl, rfl, by decide, by decide, by decide⟩

/-!
The publish protocol on the queue's published cursor, for any number of
producers.  Modelled from the spec: the multi-producer `publish` function
of the queue implementation (absent from the source tree, declared through
`vrt_producer.publish` in include/vrt/queue.h) busy-waits until the
published cursor equals `ID - 1` and only then stores `ID`; the
single-producer variant stores IDs it obtained in claim order, which
satisfies the same guard.  A publish event can therefore fire only when
the cursor sits exactly one below the published ID.  Other activity
(claims, yields, consumer steps) never writes the published cursor.
-/

inductive QueueEvent : Type
  | publish (id : Int) : QueueEvent
  | internal : QueueEvent

/-- One transition of the published cursor: a publish of `id` requires the
cursor to equal `id - 1` (the wait condition of the publish protocol) and
sets it to `id`; any other event leaves the cursor unchanged. -/
inductive CursorStep : Int → QueueEvent → Int → Prop
  | publish (id cur : Int) (h : cur = id - 1) : CursorStep cur (QueueEvent.publish id) id
  | internal (cur : Int) : CursorStep cur QueueEvent.internal cur

/-- An execution: a sequence of events driving the published cursor from
one value to another. -/
inductive CursorTrace : Int → List QueueEvent → Int → Prop
  | nil (cur : Int) : CursorTrace cur [] cur
  | cons {cur mid fin : Int} {e : QueueEvent} {es : List QueueEvent}
      (hstep : CursorStep cur e mid) (hrest : CursorTrace mid es fin) :
      CursorTrace cur (e :: es) fin

/-- The number of publish events in an event sequence. -/
def countPublish : List QueueEvent → Nat
  | [] => 0
  | QueueEvent.publish _ :: es => countPublish es + 1
  | QueueEvent.internal :: es => countPublish es

/-- C2: every publish event moves the published cursor from its previous
value `v` to exactly `v + 1`, and over any reachable execution the cursor
advances by exactly the number of publish events, so no sequence ID is
ever skipped, regardless of how publishes from different producers
interleave. -/
theorem published_cursor_no_skip :
    (∀ (cur : Int) (id : Int) (next : Int),
      CursorStep cur (QueueEvent.publish id) next → next = cur + 1) ∧
    (∀ (start : Int) (es : List QueueEvent) (fin : Int),
      CursorTrace start es fin → fin = start + countPublish es) := by
  constructor
  · intro cur id next hstep
    cases hstep with
    | publish _ _ h => omega
  · intro start es
    induction es generalizing start with
    | nil =>
      intro fin htr
      cases htr
      simp [countPublish]
    | cons e es ih =>
      intro fin htr
      cases htr with
      | cons hstep hrest =>
        cases hstep with
        | publish id _ h =>
          have := ih _ _ hrest
          simp [countPublish]
          omega
        | internal =>
          have := ih _ _ hrest
          simp [countPublish]
          omega

/-- Witness for C2: the three-event execution
`publish 0, internal, publish 1` starting from the initial sentinel. -/
theorem published_cursor_no_skip_witness :
    (CursorStep 4 (QueueEvent.publish 5) 5 ∧ (5 : Int) = 4 + 1) ∧
    (CursorTrace (-1)
        [QueueEvent.publish 0, QueueEvent.internal, QueueEvent.publish 1] 1 ∧
      (1 : Int) = -1 + countPublish
        [QueueEvent.publish 0, QueueEvent.internal, QueueEvent.publish 1]) :=
  ⟨⟨CursorStep.publish 5 4 (by decide), published_cursor_no_skip.1 4 5 5
      (CursorStep.publish 5 4 (by decide))⟩,
    ⟨CursorTrace.cons (CursorStep.publish 0 (-1) (by decide))
        (CursorTrace.cons (CursorStep.internal 0)
          (CursorTrace.cons (CursorStep.publish 1 0 (by decide))
            (CursorTrace.nil 1))),
      published_cursor_no_skip.2 (-1) _ 1
        (CursorTrace.cons (CursorStep.publish 0 (-1) (by decide))
          (CursorTrace.cons (CursorStep.internal 0)
            (CursorTrace.cons (CursorStep.publish 1 0 (by decide))
              (CursorTrace.nil 1))))⟩⟩

/-!
The consumer.  `enum vrt_value_special` and the return-code sentinels are
from include/vrt/queue.h; the body of `vrt_consumer_next` lives in the
queue implementation file, which is not in the source tree, so it is
modelled from the spec below.
-/

/-- `enum vrt_value_special` from include/vrt/queue.h. -/
inductive vrt_value_special : Type
  | VRT_VALUE_NONE
  | VRT_VALUE_EOF
  | VRT_VALUE_HOLE
  | VRT_VALUE_FLUSH
deriving DecidableEq

/-- `#define VRT_QUEUE_EOF -2` from include/vrt/queue.h. -/
def VRT_QUEUE_EOF : Int := -2

/-- `#define VRT_QUEUE_FLUSH -3` from include/vrt/queue.h. -/
def VRT_QUEUE_FLUSH : Int := -3

/-- Consumer state, from `struct vrt_consumer` in include/vrt/queue.h:
its published cursor, the ID currently being consumed, and the number of
EOFs seen.  (`last_available_id` is a cache of the availability horizon;
availability is modelled by the fuel argument of `vrt_consumer_next`.) -/
structure vrt_consumer : Type where
  cursor : Int
  current_id : Int
  eof_count : Nat
deriving DecidableEq

/-- Modelled from the spec: a fresh consumer starts at the sentinel
cursor, one before the first valid ID, with no EOFs seen. -/
def vrt_consumer_init : vrt_consumer :=
  { cursor := -1, current_id := -1, eof_count := 0 }

/-- The outcome of one `vrt_consumer_next` call: a delivered value ID, a
FLUSH signal, or an EOF signal. -/
inductive NextResult : Type
  | ok (id : Int)
  | flush
  | eof
deriving DecidableEq

/-- The C return code of a `vrt_consumer_next` outcome. -/
def next_result_code : NextResult → Int
  | NextResult.ok _ => 0
  | NextResult.flush => VRT_QUEUE_FLUSH
  | NextResult.eof => VRT_QUEUE_EOF

/-- Modelled from the spec: the body of `vrt_consumer_next` (declared in
include/vrt/queue.h, implementation file not in the source tree).
`stream id` is the special field of the slot holding sequence ID `id` at
the time the consumer reads it, and `producer_count` is the number of
producers attached to the queue.  Each step consumes the next ID: a NONE
slot is delivered to the caller, a HOLE is skipped silently (publishing
the cursor), a FLUSH returns immediately with the cursor published, and
an EOF increments `eof_count`, returning only when the count reaches
`producer_count`.  The fuel is the number of available slots; exhausting
it models the consumer blocking in its yield loop, not a return. -/
def vrt_consumer_next (stream : Int → vrt_value_special) (producer_count : Nat) :
    Nat → vrt_consumer → Option (NextResult × vrt_consumer)
  | 0, _ => none
  | fuel + 1, c =>
    match stream (c.current_id + 1) with
    | vrt_value_special.VRT_VALUE_NONE =>
        some (NextResult.ok (c.current_id + 1), { c with current_id := c.current_id + 1 })
    | vrt_value_special.VRT_VALUE_HOLE =>
        vrt_consumer_next stream producer_count fuel
          { c with current_id := c.current_id + 1, cursor := c.current_id + 1 }
    | vrt_value_special.VRT_VALUE_FLUSH =>
        some (NextResult.flush,
          { c with current_id := c.current_id + 1, cursor := c.current_id + 1 })
    | vrt_value_special.VRT_VALUE_EOF =>
        if c.eof_count + 1 = producer_count then
          some (NextResult.eof,
            { cursor := c.current_id + 1, current_id := c.current_id + 1,
              eof_count := c.eof_count + 1 })
        else
          vrt_consumer_next stream producer_count fuel
            { cursor := c.current_id + 1, current_id := c.current_id + 1,
              eof_count := c.eof_count + 1 }

/-- The number of EOF-marked slots with sequence ID in `(lo, hi]`. -/
def eofCountIn (stream : Int → vrt_value_special) (lo hi : Int) : Nat :=
  ((Finset.Ioc lo hi).filter
    (fun j => stream j = vrt_value_special.VRT_VALUE_EOF)).card

theorem eofCountIn_empty (s : Int → vrt_value_special) {lo hi : Int} (h : hi ≤ lo) :
    eofCountIn s lo hi = 0 := by
  unfold eofCountIn
  rw [Finset.Ioc_eq_empty (by omega)]
  simp

theorem eofCountIn_split (s : Int → vrt_value_special) {lo hi : Int} (h : lo < hi) :
    eofCountIn s lo hi =
      (if s (lo + 1) = vrt_value_special.VRT_VALUE_EOF then 1 else 0) +
        eofCountIn s (lo + 1) hi := by
  unfold eofCountIn
  have hins : Finset.Ioc lo hi = insert (lo + 1) (Finset.Ioc (lo + 1) hi) := by
    ext x
    simp only [Finset.mem_Ioc, Finset.mem_insert]
    omega
  rw [hins, Finset.filter_insert]
  by_cases hs : s (lo + 1) = vrt_value_special.VRT_VALUE_EOF
  · rw [if_pos hs, if_pos hs, Finset.card_insert_of_not_mem]
    · omega
    · simp [Finset.mem_filter, Finset.mem_Ioc]
  · rw [if_neg hs, if_neg hs]
    omega

theorem next_current_id_lt {s : Int → vrt_value_special} {pc : Nat} :
    ∀ fuel (c : vrt_consumer) r c',
      vrt_consumer_next s pc fuel c = some (r, c') → c.current_id < c'.current_id := by
  intro fuel
  induction fuel with
  | zero => intro c r c' h; simp [vrt_consumer_next] at h
  | succ fuel ih =>
    intro c r c' h
    simp only [vrt_consumer_next] at h
    split at h
    · simp only [Option.some.injEq, Prod.mk.injEq] at h
      obtain ⟨-, h2⟩ := h
      subst h2
      simp
    · have := ih _ _ _ h
      simp at this
      omega
    · simp only [Option.some.injEq, Prod.mk.injEq] at h
      obtain ⟨-, h2⟩ := h
      subst h2
      simp
    · split at h
      · simp only [Option.some.injEq, Prod.mk.injEq] at h
        obtain ⟨-, h2⟩ := h
        subst h2
        simp
      · have := ih _ _ _ h
        simp at this
        omega

theorem next_ok_char {s : Int → vrt_value_special} {pc : Nat} :
    ∀ fuel (c : vrt_consumer) k c',
      vrt_consumer_next s pc fuel c = some (NextResult.ok k, c') →
      k = c'.current_id ∧ s c'.current_id = vrt_value_special.VRT_VALUE_NONE := by
  intro fuel
  induction fuel with
  | zero => intro c k c' h; simp [vrt_consumer_next] at h
  | succ fuel ih =>
    intro c k c' h
    simp only [vrt_consumer_next] at h
    split at h
    case _ heq =>
      simp only [Option.some.injEq, Prod.mk.injEq, NextResult.ok.injEq] at h
      obtain ⟨h1, h2⟩ := h
      subst h2
      exact ⟨h1.symm, heq⟩
    · exact ih _ _ _ h
    · simp at h
    · split at h
      · simp at h
      · exact ih _ _ _ h

theorem next_flush_char {s : Int → vrt_value_special} {pc : Nat} :
    ∀ fuel (c : vrt_consumer) c',
      vrt_consumer_next s pc fuel c = some (NextResult.flush, c') →
      s c'.current_id = vrt_value_special.VRT_VALUE_FLUSH ∧ c'.cursor = c'.current_id := by
  intro fuel
  induction fuel with
  | zero => intro c c' h; simp [vrt_consumer_next] at h
  | succ fuel ih =>
    intro c c' h
    simp only [vrt_consumer_next] at h
    split at h
    · simp at h
    · exact ih _ _ h
    case _ heq =>
      simp only [Option.some.injEq, Prod.mk.injEq] at h
      obtain ⟨-, h2⟩ := h
      subst h2
      exact ⟨heq, rfl⟩
    · split at h
      · simp at h
      · exact ih _ _ h

theorem next_eof_char {s : Int → vrt_value_special} {pc : Nat} :
    ∀ fuel (c : vrt_consumer) c',
      vrt_consumer_next s pc fuel c = some (NextResult.eof, c') →
      s c'.current_id = vrt_value_special.VRT_VALUE_EOF ∧ c'.eof_count = pc ∧
        c'.cursor = c'.current_id := by
  intro fuel
  induction fuel with
  | zero => intro c c' h; simp [vrt_consumer_next] at h
  | succ fuel ih =>
    intro c c' h
    simp only [vrt_consumer_next] at h
    split at h
    · simp at h
    · exact ih _ _ h
    · simp at h
    case _ heq =>
      split at h
      case _ hcount =>
        simp only [Option.some.injEq, Prod.mk.injEq] at h
        obtain ⟨-, h2⟩ := h
        subst h2
        exact ⟨heq, hcount, rfl⟩
      · exact ih _ _ h

theorem next_intermediate {s : Int → vrt_value_special} {pc : Nat} :
    ∀ fuel (c : vrt_consumer) r c',
      vrt_consumer_next s pc fuel c = some (r, c') →
      ∀ j, c.current_id < j → j < c'.current_id →
        s j = vrt_value_special.VRT_VALUE_HOLE ∨ s j = vrt_value_special.VRT_VALUE_EOF := by
  intro fuel
  induction fuel with
  | zero => intro c r c' h; simp [vrt_consumer_next] at h
  | succ fuel ih =>
    intro c r c' h
    simp only [vrt_consumer_next] at h
    split at h
    · simp only [Option.some.injEq, Prod.mk.injEq] at h
      obtain ⟨-, h2⟩ := h
      subst h2
      intro j hj1 hj2
      simp at hj2
      omega
    case _ heq =>
      intro j hj1 hj2
      rcases eq_or_lt_of_le (show c.current_id + 1 ≤ j by omega) with hj | hj
      · left; rw [← hj]; exact heq
      · exact ih _ _ _ h j (by simpa using hj) hj2
    · simp only [Option.some.injEq, Prod.mk.injEq] at h
      obtain ⟨-, h2⟩ := h
      subst h2
      intro j hj1 hj2
      simp at hj2
      omega
    case _ heq =>
      split at h
      · simp only [Option.some.injEq, Prod.mk.injEq] at h
        obtain ⟨-, h2⟩ := h
        subst h2
        intro j hj1 hj2
        simp at hj2
        omega
      · intro j hj1 hj2
        rcases eq_or_lt_of_le (show c.current_id + 1 ≤ j by omega) with hj | hj
        · right; rw [← hj]; exact heq
        · exact ih _ _ _ h j (by simpa using hj) hj2

theorem next_eof_count_eq {s : Int → vrt_value_special} {pc : Nat} :
    ∀ fuel (c : vrt_consumer) r c',
      vrt_consumer_next s pc fuel c = some (r, c') →
      c'.eof_count = c.eof_count + eofCountIn s c.current_id c'.current_id := by
  intro fuel
  induction fuel with
  | zero => intro c r c' h; simp [vrt_consumer_next] at h
  | succ fuel ih =>
    intro c r c' h
    simp only [vrt_consumer_next] at h
    split at h
    case _ heq =>
      simp only [Option.some.injEq, Prod.mk.injEq] at h
      obtain ⟨-, h2⟩ := h
      subst h2
      dsimp only
      rw [eofCountIn_split s (by omega), if_neg (by simp [heq]),
        eofCountIn_empty s (by omega)]
      omega
    case _ heq =>
      have hlt := next_current_id_lt _ _ _ _ h
      have hc := ih _ _ _ h
      dsimp only at hlt hc
      rw [eofCountIn_split s (by omega), if_neg (by simp [heq])]
      omega
    case _ heq =>
      simp only [Option.some.injEq, Prod.mk.injEq] at h
      obtain ⟨-, h2⟩ := h
      subst h2
      dsimp only
      rw [eofCountIn_split s (by omega), if_neg (by simp [heq]),
        eofCountIn_empty s (by omega)]
      omega
    case _ heq =>
      split at h
      · simp only [Option.some.injEq, Prod.mk.injEq] at h
        obtain ⟨-, h2⟩ := h
        subst h2
        dsimp only
        rw [eofCountIn_split s (by omega), if_pos heq, eofCountIn_empty s (by omega)]
      · have hlt := next_current_id_lt _ _ _ _ h
        have hc := ih _ _ _ h
        dsimp only at hlt hc
        rw [eofCountIn_split s (by omega), if_pos heq]
        omega

/-- C3: a terminating `vrt_consumer_next` call consumes IDs one at a time
starting right after the previously consumed ID `current_id` (so each
consumed ID is its predecessor plus one), the slots consumed before the
delivered one are HOLE or EOF slots — consumed but never delivered — and a
delivered ID is the last consumed one and holds a NONE slot.  Consequently
deliveries are FIFO in increasing ID order with HOLEs invisible to the
caller, and a fresh consumer starts at the first NONE slot from ID 0. -/
theorem vrt_consumer_next_fifo_spec (s : Int → vrt_value_special) (pc : Nat) :
    (∀ fuel c r c', vrt_consumer_next s pc fuel c = some (r, c') →
      c.current_id < c'.current_id ∧
      (∀ j, c.current_id < j → j < c'.current_id →
        s j = vrt_value_special.VRT_VALUE_HOLE ∨ s j = vrt_value_special.VRT_VALUE_EOF) ∧
      (∀ k, r = NextResult.ok k →
        k = c'.current_id ∧ s k = vrt_value_special.VRT_VALUE_NONE)) ∧
    (∀ fuel1 fuel2 c c1 c2 k1 k2,
      vrt_consumer_next s pc fuel1 c = some (NextResult.ok k1, c1) →
      vrt_consumer_next s pc fuel2 c1 = some (NextResult.ok k2, c2) →
      k1 < k2 ∧
      ∀ j, k1 < j → j < k2 → s j ≠ vrt_value_special.VRT_VALUE_NONE) ∧
    (∀ fuel c' k,
      vrt_consumer_next s pc fuel vrt_consumer_init = some (NextResult.ok k, c') →
      0 ≤ k ∧ ∀ j, 0 ≤ j → j < k → s j ≠ vrt_value_special.VRT_VALUE_NONE) := by
  have single : ∀ fuel (c : vrt_consumer) r c',
      vrt_consumer_next s pc fuel c = some (r, c') →
      c.current_id < c'.current_id ∧
      (∀ j, c.current_id < j → j < c'.current_id →
        s j = vrt_value_special.VRT_VALUE_HOLE ∨ s j = vrt_value_special.VRT_VALUE_EOF) ∧
      (∀ k, r = NextResult.ok k →
        k = c'.current_id ∧ s k = vrt_value_special.VRT_VALUE_NONE) := by
    intro fuel c r c' h
    refine ⟨next_current_id_lt _ _ _ _ h, next_intermediate _ _ _ _ h, ?_⟩
    intro k hk
    subst hk
    obtain ⟨h1, h2⟩ := next_ok_char _ _ _ _ h
    exact ⟨h1, h1 ▸ h2⟩
  refine ⟨single, ?_, ?_⟩
  · intro fuel1 fuel2 c c1 c2 k1 k2 h1 h2
    obtain ⟨hk1, hs1⟩ := next_ok_char _ _ _ _ h1
    obtain ⟨hk2, hs2⟩ := next_ok_char _ _ _ _ h2
    have hlt := next_current_id_lt _ _ _ _ h2
    refine ⟨by omega, ?_⟩
    intro j hj1 hj2
    have := next_intermediate _ _ _ _ h2 j (by omega) (by omega)
    rcases this with h | h <;> simp [h]
  · intro fuel c' k h
    obtain ⟨hk, hs⟩ := next_ok_char _ _ _ _ h
    have hlt := next_current_id_lt _ _ _ _ h
    have hinit : vrt_consumer_init.current_id = -1 := rfl
    refine ⟨by omega, ?_⟩
    intro j hj1 hj2
    have := next_intermediate _ _ _ _ h j (by omega) (by omega)
    rcases this with h' | h' <;> simp [h']

/-- A concrete slot stream used by the consumer witnesses: a HOLE at ID 1,
a FLUSH at ID 3, an EOF at ID 4, NONE everywhere else. -/
def witness_stream : Int → vrt_value_special := fun id =>
  if id = 1 then vrt_value_special.VRT_VALUE_HOLE
  else if id = 3 then vrt_value_special.VRT_VALUE_FLUSH
  else if id = 4 then vrt_value_special.VRT_VALUE_EOF
  else vrt_value_special.VRT_VALUE_NONE

/-- Witness for C3: two successive calls on `witness_stream` deliver 0 and
then 2, skipping the HOLE at 1. -/
theorem vrt_consumer_next_fifo_spec_witness :
    (vrt_consumer_next witness_stream 1 1 vrt_consumer_init =
        some (NextResult.ok 0, ⟨-1, 0, 0⟩) ∧
      vrt_consumer_next witness_stream 1 2 ⟨-1, 0, 0⟩ =
        some (NextResult.ok 2, ⟨1, 2, 0⟩)) ∧
    (0 : Int) < 2 :=
  ⟨⟨by decide, by decide⟩,
    ((vrt_consumer_next_fifo_spec witness_stream 1).2.1 1 2 vrt_consumer_init
      ⟨-1, 0, 0⟩ ⟨1, 2, 0⟩ 0 2 (by decide) (by decide)).1⟩

/-- C5: every terminating `vrt_consumer_next` call returns one of exactly
three codes: 0 (a value was delivered), `VRT_QUEUE_FLUSH = -3`, or
`VRT_QUEUE_EOF = -2`; there is no "queue empty" code — with nothing
available (zero fuel) the call stays in its yield loop instead of
returning. -/
theorem vrt_consumer_next_codes_spec (s : Int → vrt_value_special) (pc : Nat) :
    (∀ fuel c r c', vrt_consumer_next s pc fuel c = some (r, c') →
      next_result_code r = 0 ∨ next_result_code r = VRT_QUEUE_FLUSH ∨
        next_result_code r = VRT_QUEUE_EOF) ∧
    (∀ k, next_result_code (NextResult.ok k) = 0) ∧
    VRT_QUEUE_EOF = -2 ∧ VRT_QUEUE_FLUSH = -3 ∧
    (∀ c, vrt_consumer_next s pc 0 c = none) := by
  refine ⟨?_, fun k => rfl, rfl, rfl, fun c => rfl⟩
  intro fuel c r c' _
  cases r with
  | ok k => exact Or.inl rfl
  | flush => exact Or.inr (Or.inl rfl)
  | eof => exact Or.inr (Or.inr rfl)

/-- Witness for C5: the call that hits the FLUSH slot of `witness_stream`
returns, and its code is one of the three sentinels. -/
theorem vrt_consumer_next_codes_spec_witness :
    vrt_consumer_next witness_stream 1 1 ⟨1, 2, 0⟩ =
      some (NextResult.flush, ⟨3, 3, 0⟩) ∧
    (next_result_code NextResult.flush = 0 ∨
      next_result_code NextResult.flush = VRT_QUEUE_FLUSH ∨
      next_result_code NextResult.flush = VRT_QUEUE_EOF) :=
  ⟨by decide,
    (vrt_consumer_next_codes_spec witness_stream 1).1 1 ⟨1, 2, 0⟩ NextResult.flush
      ⟨3, 3, 0⟩ (by decide)⟩

/-- C6: `vrt_consumer_next` returns EOF exactly when the slot it stopped
on is EOF-marked and the consumer's `eof_count` has reached the number of
attached producers (and then its cursor is published); across any call the
`eof_count` grows by exactly the number of EOF slots consumed, so earlier
EOF slots are counted and silently skipped; a FLUSH slot instead causes an
immediate FLUSH return with the cursor published, regardless of any
count. -/
theorem vrt_consumer_next_eof_flush_spec (s : Int → vrt_value_special) (pc : Nat) :
    (∀ fuel c r c', vrt_consumer_next s pc fuel c = some (r, c') →
      (r = NextResult.eof ↔
        (s c'.current_id = vrt_value_special.VRT_VALUE_EOF ∧ c'.eof_count = pc)) ∧
      (r = NextResult.eof → c'.cursor = c'.current_id) ∧
      c'.eof_count = c.eof_count + eofCountIn s c.current_id c'.current_id) ∧
    (∀ fuel c, s (c.current_id + 1) = vrt_value_special.VRT_VALUE_FLUSH →
      vrt_consumer_next s pc (fuel + 1) c =
        some (NextResult.flush,
          { c with current_id := c.current_id + 1, cursor := c.current_id + 1 }) ∧
      (({ c with current_id := c.current_id + 1, cursor := c.current_id + 1 } :
        vrt_consumer)).cursor = c.current_id + 1) := by
  constructor
  · intro fuel c r c' h
    refine ⟨⟨?_, ?_⟩, ?_, next_eof_count_eq _ _ _ _ h⟩
    · intro hr
      subst hr
      obtain ⟨h1, h2, -⟩ := next_eof_char _ _ _ h
      exact ⟨h1, h2⟩
    · intro ⟨hs, hc⟩
      cases r with
      | ok k =>
        obtain ⟨-, hnone⟩ := next_ok_char _ _ _ _ h
        rw [hnone] at hs
        cases hs
      | flush =>
        obtain ⟨hflush, -⟩ := next_flush_char _ _ _ h
        rw [hflush] at hs
        cases hs
      | eof => rfl
    · intro hr
      subst hr
      exact (next_eof_char _ _ _ h).2.2
  · intro fuel c hs
    refine ⟨?_, rfl⟩
    simp only [vrt_consumer_next, hs]

/-- Witness for C6: on `witness_stream` with one producer, consuming the
EOF slot at ID 4 brings `eof_count` to the producer count and returns
EOF. -/
theorem vrt_consumer_next_eof_flush_spec_witness :
    vrt_consumer_next witness_stream 1 1 ⟨3, 3, 0⟩ =
      some (NextResult.eof, ⟨4, 4, 1⟩) ∧
    (witness_stream ((⟨4, 4, 1⟩ : vrt_consumer).current_id) =
        vrt_value_special.VRT_VALUE_EOF ∧
      (⟨4, 4, 1⟩ : vrt_consumer).eof_count = 1) :=
  ⟨by decide,
    ((vrt_consumer_next_eof_flush_spec witness_stream 1).1 1 ⟨3, 3, 0⟩
      NextResult.eof ⟨4, 4, 1⟩ (by decide)).1.mp rfl⟩

/-!
The producer's claim-side safety guard.  Modelled from the spec: before
handing out a newly claimed batch ending at ID `k`, `vrt_producer_claim`
(declared in include/vrt/queue.h, implementation file not in the source
tree) repeatedly reads every consumer's cursor, takes their minimum under
modular comparison, and waits — invoking its yield strategy after every
failed check — until that minimum is at least `k - N`, where `N` is the
queue size.
-/

/-- Modelled from the spec: the minimum of the attached consumers'
cursors under modular comparison (`vrt_mod_lt`). -/
def vrt_minimum_cursor (cursors : List Int) : Int :=
  match cursors with
  | [] => 0
  | c :: rest => rest.foldl (fun m x => if vrt_mod_lt x m then x else m) c

/-- Modelled from the spec: the wait loop of the claim path.  `obs t` is
the list of consumer cursors the producer reads on its `t`-th check.  A
failed check costs one yield and one re-read; the loop returns the index
of the first successful check.  The fuel bounds how many checks we
unroll; exhausting it models a producer still stuck in its yield loop. -/
def claim_wait (obs : Nat → List Int) (wrap_target : Int) : Nat → Nat → Option Nat
  | 0, _ => none
  | fuel + 1, t =>
      if vrt_mod_le wrap_target (vrt_minimum_cursor (obs t)) then some t
      else claim_wait obs wrap_target fuel (t + 1)

/-- Modelled from the spec: the slot-reuse guard of `vrt_producer_claim`
for a claim of ID `k` on a queue of `N` slots: wait until the modular
minimum consumer cursor is at least `k - N` (computed in wrapping 32-bit
arithmetic). -/
def vrt_producer_claim_wait (obs : Nat → List Int) (k N : Int) (fuel t0 : Nat) :
    Option Nat :=
  claim_wait obs (int32_wrap (k - N)) fuel t0

theorem vrt_mod_window {base x y : Int}
    (hx : 0 ≤ int32_wrap (x - base)) (hy : 0 ≤ int32_wrap (y - base)) :
    (vrt_mod_lt x y = true ↔ int32_wrap (x - base) < int32_wrap (y - base)) ∧
    (vrt_mod_le x y = true ↔ int32_wrap (x - base) ≤ int32_wrap (y - base)) := by
  obtain ⟨hx1, hx2⟩ := int32_wrap_rep (x - base)
  obtain ⟨hy1, hy2⟩ := int32_wrap_rep (y - base)
  have h1 : int32_wrap (y - x) = int32_wrap (y - base) - int32_wrap (x - base) := by
    have e : y - x = (y - base) - (x - base) := by ring
    rw [e, ← int32_wrap_sub_left (y - base) (x - base),
      ← int32_wrap_sub_right (int32_wrap (y - base)) (x - base)]
    apply int32_wrap_eq_self
    unfold Int32Rep INT32_HALF at *
    constructor <;> omega
  constructor
  · simp only [vrt_mod_lt, decide_eq_true_eq, h1]
    omega
  · simp only [vrt_mod_le, decide_eq_true_eq, h1]
    omega

theorem foldl_min_window (base : Int) :
    ∀ (l : List Int) (acc : Int), 0 ≤ int32_wrap (acc - base) →
      (∀ x ∈ l, 0 ≤ int32_wrap (x - base)) →
      0 ≤ int32_wrap (l.foldl (fun m x => if vrt_mod_lt x m then x else m) acc - base) ∧
      int32_wrap (l.foldl (fun m x => if vrt_mod_lt x m then x else m) acc - base) ≤
        int32_wrap (acc - base) ∧
      (∀ x ∈ l,
        int32_wrap (l.foldl (fun m x => if vrt_mod_lt x m then x else m) acc - base) ≤
          int32_wrap (x - base)) := by
  intro l
  induction l with
  | nil =>
    intro acc hacc _
    exact ⟨hacc, le_refl _, by simp⟩
  | cons y l ih =>
    intro acc hacc hall
    have hy : 0 ≤ int32_wrap (y - base) := hall y (by simp)
    have hall' : ∀ x ∈ l, 0 ≤ int32_wrap (x - base) := fun x hx => hall x (by simp [hx])
    by_cases hcmp : vrt_mod_lt y acc = true
    · have hlt : int32_wrap (y - base) < int32_wrap (acc - base) :=
        ((vrt_mod_window hy hacc).1).mp hcmp
      obtain ⟨m1, m2, m3⟩ := ih y hy hall'
      simp only [List.foldl_cons, if_pos hcmp]
      refine ⟨m1, by omega, ?_⟩
      intro x hx
      rcases List.mem_cons.mp hx with rfl | hx
      · omega
      · exact m3 x hx
    · have hge : int32_wrap (acc - base) ≤ int32_wrap (y - base) := by
        by_contra hcon
        exact hcmp (((vrt_mod_window hy hacc).1).mpr (by omega))
      obtain ⟨m1, m2, m3⟩ := ih acc hacc hall'
      simp only [List.foldl_cons, if_neg hcmp]
      refine ⟨m1, m2, ?_⟩
      intro x hx
      rcases List.mem_cons.mp hx with rfl | hx
      · omega
      · exact m3 x hx

theorem claim_wait_first_success (obs : Nat → List Int) (w : Int) :
    ∀ fuel t0 t, claim_wait obs w fuel t0 = some t →
      t0 ≤ t ∧
      (∀ u, t0 ≤ u → u < t → vrt_mod_le w (vrt_minimum_cursor (obs u)) = false) ∧
      vrt_mod_le w (vrt_minimum_cursor (obs t)) = true := by
  intro fuel
  induction fuel with
  | zero => intro t0 t h; simp [claim_wait] at h
  | succ fuel ih =>
    intro t0 t h
    simp only [claim_wait] at h
    split at h
    case isTrue hgood =>
      simp only [Option.some.injEq] at h
      subst h
      exact ⟨le_refl _, fun u hu1 hu2 => by omega, hgood⟩
    case isFalse hbad =>
      obtain ⟨h1, h2, h3⟩ := ih (t0 + 1) t h
      refine ⟨by omega, ?_, h3⟩
      intro u hu1 hu2
      rcases Nat.eq_or_lt_of_le hu1 with heq | hlt
      · rw [← heq]
        cases hb : vrt_mod_le w (vrt_minimum_cursor (obs t0)) with
        | false => rfl
        | true => exact absurd hb hbad
      · exact h2 u (by omega) hu2

/-- C4: if the claim of ID `k` on a queue of `N` slots returns, it does so
at the first check where the modular minimum consumer cursor reached
`k - N`; every earlier check failed and cost only a yield, never a
return.  And when the minimum passes the check — with all observed
cursors and `k - N` inside one half-range window, the regime in which
modular comparison is an order — every consumer's cursor individually
satisfies `k - N ≤ cursor`, so no slot of the new batch is still live for
any consumer. -/
theorem vrt_producer_claim_safe (obs : Nat → List Int) (k N : Int) :
    (∀ fuel t0 t, vrt_producer_claim_wait obs k N fuel t0 = some t →
      t0 ≤ t ∧
      (∀ u, t0 ≤ u → u < t →
        vrt_mod_le (int32_wrap (k - N)) (vrt_minimum_cursor (obs u)) = false) ∧
      vrt_mod_le (int32_wrap (k - N)) (vrt_minimum_cursor (obs t)) = true) ∧
    (∀ base t, 0 ≤ int32_wrap (int32_wrap (k - N) - base) →
      (∀ x ∈ obs t, 0 ≤ int32_wrap (x - base)) →
      vrt_mod_le (int32_wrap (k - N)) (vrt_minimum_cursor (obs t)) = true →
      ∀ x ∈ obs t, vrt_mod_le (int32_wrap (k - N)) x = true) := by
  constructor
  · exact claim_wait_first_success obs (int32_wrap (k - N))
  · intro base t hw hall hmin x hx
    cases hobs : obs t with
    | nil => rw [hobs] at hx; cases hx
    | cons c rest =>
      rw [hobs] at hall hmin hx
      have hc : 0 ≤ int32_wrap (c - base) := hall c (by simp)
      have hrest : ∀ y ∈ rest, 0 ≤ int32_wrap (y - base) :=
        fun y hy => hall y (by simp [hy])
      obtain ⟨m1, m2, m3⟩ := foldl_min_window base rest c hc hrest
      have hmin' : int32_wrap (int32_wrap (k - N) - base) ≤
          int32_wrap (vrt_minimum_cursor (c :: rest) - base) := by
        exact ((vrt_mod_window hw (by simpa [vrt_minimum_cursor] using m1)).2).mp hmin
      have hxw : 0 ≤ int32_wrap (x - base) := hall x hx
      apply ((vrt_mod_window hw hxw).2).mpr
      rcases List.mem_cons.mp hx with rfl | hxr
      · simp only [vrt_minimum_cursor] at hmin'
        omega
      · have := m3 x hxr
        simp only [vrt_minimum_cursor] at hmin'
        omega

/-- The cursor observations used by the C4 witness: one consumer, whose
cursor reads 5 on the first check and 7 on the second. -/
def witness_obs : Nat → List Int := fun t => if t = 0 then [5] else [7]

/-- Witness for C4: claiming ID 10 on a 4-slot queue needs the consumer
cursor to reach 6; the check fails at time 0 (cursor 5), the producer
yields, and the claim returns at time 1 (cursor 7), where the consumer's
cursor indeed satisfies the modular bound. -/
theorem vrt_producer_claim_safe_witness :
    (vrt_producer_claim_wait witness_obs 10 4 2 0 = some 1 ∧
      0 ≤ int32_wrap (int32_wrap (10 - 4) - 0) ∧
      (7 : Int) ∈ witness_obs 1) ∧
    (vrt_mod_le (int32_wrap (10 - 4)) (vrt_minimum_cursor (witness_obs 1)) = true ∧
      vrt_mod_le (int32_wrap (10 - 4)) 7 = true) :=
  ⟨⟨by decide, by decide, by decide⟩,
    ⟨((vrt_producer_claim_safe witness_obs 10 4).1 2 0 1 (by decide)).2.2,
      (vrt_producer_claim_safe witness_obs 10 4).2 0 1 (by decide) (by decide)
        (((vrt_producer_claim_safe witness_obs 10 4).1 2 0 1 (by decide)).2.2)
        7 (by decide)⟩⟩
